import Mathlib

/-!
Verification development for the splode dependency-graph decomposition engine.

The Python sources are shallowly embedded:
* a `user_map` (the reference graph built by `selective_user_map`) becomes an
  association list `List (α × List α)` mapping a datablock to the list of
  datablocks that use it; Python set iteration order is modelled as list
  (insertion) order;
* generators become functions returning lists; recursive generators are given
  a fuel argument large enough never to run out on the graphs they are run on;
* Python `frozenset` values are modelled as duplicate-free lists compared by
  set equality (`sEq`), and `assert` statements become `Bool`-valued checks.
-/

namespace Splode

variable {α : Type} [DecidableEq α]

/-- The keys of a `user_map` dict, in iteration order. -/
def keysOf (g : List (α × List α)) : List α := g.map (·.1)

/-- `user_map[x]`: the users (consumers) recorded for `x`; `[]` when absent. -/
def lookupUsers (g : List (α × List α)) (x : α) : List α :=
  match g.find? (fun p => p.1 = x) with
  | some p => p.2
  | none => []

/-- `depcycles.find_cycles`' inner `chain` generator: walk the used-by edges,
accumulating the path; on reaching a node already on the path, yield the whole
accumulated path (when longer than 1); a node depending on itself is skipped.
`fuel` bounds the recursion depth and is chosen large enough at the top. -/
def chainF (g : List (α × List α)) : Nat → α → List α → List (List α)
  | 0, _, _ => []
  | f + 1, startid, chainSoFar =>
    if startid ∈ chainSoFar then
      if chainSoFar.length > 1 then [chainSoFar] else []
    else
      (lookupUsers g startid).flatMap fun nextid =>
        if nextid = startid then []
        else chainF g f nextid (chainSoFar ++ [startid])

/-- `depcycles.find_cycles`: run `chain` from every key of the graph. -/
def find_cycles (g : List (α × List α)) : List (List α) :=
  (keysOf g).flatMap fun idblock => chainF g (g.length + 1) idblock []

/-- Keep-first duplicate removal (`frozenset(cycle)` modelled as the list of
distinct elements in first-occurrence order). -/
def dedupAux (seen : List α) : List α → List α
  | [] => []
  | x :: xs => if x ∈ seen then dedupAux seen xs else x :: dedupAux (x :: seen) xs

/-- `frozenset` of a cycle, as a duplicate-free list. -/
def dedupF (l : List α) : List α := dedupAux [] l

/-- `a.issubset(b)` on set-like lists. -/
def subsetB (a b : List α) : Bool := a.all (fun x => decide (x ∈ b))

/-- `frozenset` equality on set-like lists. -/
def sEq (a b : List α) : Bool := subsetB a b && subsetB b a

/-- The `for other in unified: ...` scan of `unify_cycles` for one incoming
cycle set `cs`: at the first `other` that is a superset of `cs`, keep
everything unchanged (the incoming cycle is already covered); at the first
`other` that is a subset of `cs`, discard it and add `cs`; if the loop
finishes without a break, add `cs` as a new group. -/
def unifyScan (cs : List α) : List (List α) → List (List α)
  | [] => [cs]
  | o :: rest =>
    if subsetB cs o then o :: rest
    else if subsetB o cs then rest ++ [cs]
    else o :: unifyScan cs rest

/-- One iteration of `unify_cycles`' outer loop: skip the incoming cycle when
its set is already kept, otherwise run the superset/subset scan. -/
def unifyStep (unified : List (List α)) (cycle : List α) : List (List α) :=
  if unified.any (fun o => sEq o (dedupF cycle)) then unified
  else unifyScan (dedupF cycle) unified

/-- `depcycles.unify_cycles`. -/
def unify_cycles (cycles : List (List α)) : List (List α) :=
  cycles.foldl unifyStep []

/-- Inner loop of `assert_disjoint`: extend the `seen` set with one cycle,
failing (`none`) when a member was already seen. -/
def seenAdd (seen : List α) (cycle : List α) : Option (List α) :=
  cycle.foldl
    (fun acc x => acc.bind fun s => if x ∈ s then none else some (x :: s))
    (some seen)

/-- `depcycles.assert_disjoint`, as a check: `true` iff the assertion passes,
`false` iff it would raise `AssertionError`. -/
def assertDisjoint (cycles : List (List α)) : Bool :=
  (cycles.foldl (fun acc c => acc.bind fun s => seenAdd s c) (some [])).isSome

/-- The dependencies of `idblock` according to `reversed_map` built by
`bottom_up`: every key whose recorded user set contains `idblock`, in
`user_map` iteration order. -/
def revDeps (g : List (α × List α)) (y : α) : List α :=
  (g.filter fun p => decide (y ∈ p.2)).map (·.1)

/-- `bottom_up`'s inner `visit` generator. The state is the `to_visit` set,
modelled as a list; the loop over `reversed_map[idblock]` recurses into every
dependency still in `to_visit` (removing it, as the recursive call's
`to_visit.discard` does) and finally yields `idblock` itself. `fuel` bounds
the recursion depth and is chosen large enough at the top. -/
def visitF (g : List (α × List α)) : Nat → α → List α → List α × List α
  | 0, x, tv => ([x], tv)
  | f + 1, x, tv =>
    let p := (revDeps g x).foldl
      (fun acc d =>
        if d ∈ acc.2 then
          let q := visitF g f d (acc.2.erase d)
          (acc.1 ++ q.1, q.2)
        else acc)
      ([], tv)
    (p.1 ++ [x], p.2)

/-- The body of `visitF`'s dependency loop, named for the proofs below. -/
def vstep (g : List (α × List α)) (f : Nat) (acc : List α × List α) (d : α) :
    List α × List α :=
  if d ∈ acc.2 then
    let q := visitF g f d (acc.2.erase d)
    (acc.1 ++ q.1, q.2)
  else acc

/-- `bottom_up`'s `while to_visit:` loop: pop an element (the model pops the
front), run `visit` on it, repeat on the remaining `to_visit`. -/
def walkF (g : List (α × List α)) (vfuel : Nat) : Nat → List α → List α
  | 0, _ => []
  | _ + 1, [] => []
  | wf + 1, x :: rest =>
    let p := visitF g vfuel x rest
    p.1 ++ walkF g vfuel wf p.2

/-- The first loop of `bottom_up`: datablocks with no users and
`use_fake_user` set are yielded immediately (and, as in the source, are not
removed from `to_visit`). -/
def preYield (g : List (α × List α)) (fu : α → Bool) : List α :=
  (g.filter fun p => p.2.isEmpty && fu p.1).map (·.1)

/-- `internal.bottom_up` (identical to the copy in `__init__.py`):
the immediate yields of unused fake-user datablocks followed by the
depth-first post-order walk over `to_visit = set(user_map.keys())`. -/
def bottom_up (g : List (α × List α)) (fu : α → Bool) : List α :=
  preYield g fu ++ walkF g (g.length + 1) (g.length + 1) (keysOf g)

/-- Acyclicity of the used-by relation, witnessed by a rank function that
strictly increases along every "is used by" edge. -/
def RankOk (g : List (α × List α)) (rk : α → Nat) : Prop :=
  ∀ p ∈ g, ∀ u ∈ p.2, rk p.1 < rk u

/-- A yield sequence is dependency-closed: every dependency of the element
at position `i` already occurs among the first `i` elements. -/
def DClosedG (g : List (α × List α)) (out : List α) : Prop :=
  ∀ (i : Nat) (h : i < out.length), ∀ d ∈ revDeps g (out.get ⟨i, h⟩),
    d ∈ out.take i

end Splode

namespace Splode

/-- A Blender ID datablock, restricted to the attributes the engine reads:
its name, its RNA type name (the kind, e.g. `"Mesh"`, `"Object"`), the
library it lives in (`none` = local, `some` = already linked from that file),
the fake-user flag, and - for objects - the object sub-type (`ob.type`,
e.g. `"ARMATURE"`). -/
structure IDBlock where
  name : String
  rnaTypeName : String
  library : Option String := none
  fakeUser : Bool := false
  objType : String := ""
deriving DecidableEq

/-- Python `str.upper()` (character-wise, which is all the kinds here
need). -/
def strUpper (s : String) : String := ⟨s.data.map Char.toUpper⟩

/-- Python `str.lower()` (character-wise). -/
def strLower (s : String) : String := ⟨s.data.map Char.toLower⟩

/-- `internal.SPLODE_ID_TYPE_ORDER`: the explicit entries of the
`defaultdict`; every other key defaults to `0`. -/
def SPLODE_ID_TYPE_ORDER : List (String × Int) :=
  [("OBJECT_ARMATURE", -20), ("OBJECT", -10), ("OBJECT_EMPTY", -5)]

/-- `find_main_idblocks`' inner `order` function: the priority of an idblock,
looking up `OBJECT_<ob.type>` first for objects and falling back to the bare
kind key; unlisted keys default to `0`. -/
def orderKey (typeOrder : List (String × Int)) (db : IDBlock) : Int :=
  let key := strUpper db.rnaTypeName
  let key :=
    if key = "OBJECT" then
      let altkey := "OBJECT_" ++ db.objType
      if (typeOrder.lookup altkey).isSome then altkey else key
    else key
  (typeOrder.lookup key).getD 0

/-- Python's `min(iterable, key=f)`: the first element attaining the minimal
key value, `none` on an empty iterable (where Python raises `ValueError`). -/
def minByFirst (f : IDBlock → Int) (l : List IDBlock) : Option IDBlock :=
  l.foldl
    (fun acc x =>
      match acc with
      | none => some x
      | some m => if f x < f m then some x else acc)
    none

/-- `depcycles.find_main_idblocks`: for each cycle pick the member minimizing
`order` into the first (main) set and put all its other members into the
second (embedded) set. The accumulating loop is written as a recursion; an
empty cycle makes Python's `min` raise, modelled as `none`. -/
def find_main_idblocks (cycles : List (List IDBlock))
    (typeOrder : List (String × Int)) : Option (List IDBlock × List IDBlock) :=
  match cycles with
  | [] => some ([], [])
  | c :: cs => do
    let m ← minByFirst (orderKey typeOrder) c
    let (mains, others) ← find_main_idblocks cs typeOrder
    pure (m :: mains, c.filter (· ≠ m) ++ others)

/-- `SingularPluralDict`: `'mesh' -> 'meshes'`, any other key gets `'s'`
appended. -/
def singular_to_plural (s : String) : String :=
  if s = "mesh" then "meshes" else s ++ "s"

/-- Directory holding the single-thingy blendfile for this idblock. -/
def blendfileDir (db : IDBlock) (rootPath : String) : String :=
  rootPath ++ "/_" ++ singular_to_plural (strLower db.rnaTypeName)

/-- `blendfile_for_idblock`. -/
def blendfile_for_idblock (db : IDBlock) (rootPath : String) : String :=
  blendfileDir db rootPath ++ "/" ++ db.name ++ ".blend"

/-- Modelled from the spec: the vendored helper module `first` (its file is
not among the sources here, only the call `first.first(data_to_subset,
key=...)` in `libify`). Per the spec's "select by matching name within the
handles of the same kind", it returns the first element for which `key`
holds, or `None` when no element matches. -/
def first (l : List IDBlock) (key : IDBlock → Bool) : Option IDBlock :=
  l.find? key

/-- The observable side effects of one `libify` call, in order. -/
inductive Effect where
  | mkdir (path : String)
  | writeLibrary (path : String)
  | loadLink (path : String)
  | setLibraryName (nm : String)
  | userRemap (orig repl : IDBlock)
deriving DecidableEq

/-- How one `libify` call ends. -/
inductive LibifyResult where
  /-- `idblock.library` was already set: return `None` without doing
  anything. -/
  | alreadyLibified
  /-- the imported handle `repl` replaced the original via `user_remap`. -/
  | remapped (repl : IDBlock)
  /-- no imported handle matched by name: the code logs "not replacing" and
  then raises `AttributeError` evaluating `replacement.name` on `None`. -/
  | attributeErrorNoneReplacement
  /-- `assert replacement.library is not None` failed. -/
  | assertionFailedLibraryNone
deriving DecidableEq

/-- `Effect.userRemap` recognizer. -/
def Effect.isRemap : Effect → Bool
  | .userRemap _ _ => true
  | _ => false

/-- `__init__.libify`. `linkedIn` is the list of `(attr, handle)` pairs the
host imports when the freshly written blendfile is loaded back with
`link=True` (the code collects exactly these in its `linked_in` list);
the handles the loop sets on `data_to` are the same objects, so the
resolution step reads them from `linkedIn` directly. -/
def libify (idblock : IDBlock) (rootPath : String) (writeIdblock : Bool)
    (linkedIn : List (String × IDBlock)) : LibifyResult × List Effect :=
  let fname := blendfile_for_idblock idblock rootPath
  if idblock.library.isSome then (.alreadyLibified, [])
  else
    let effs :=
      [Effect.mkdir (blendfileDir idblock rootPath)] ++
        (if writeIdblock then [Effect.writeLibrary fname] else []) ++
        [Effect.loadLink fname]
    let replOpt : Option IDBlock :=
      match linkedIn with
      | [(_, r)] => some r
      | _ =>
        let attr := singular_to_plural (strLower idblock.rnaTypeName)
        let subset := (linkedIn.filter fun p => p.1 = attr).map (·.2)
        first subset fun ob => ob.name = idblock.name
    match replOpt with
    | none => (.attributeErrorNoneReplacement, effs)
    | some r =>
      if r.library.isSome then
        (.remapped r,
          effs ++
            [Effect.setLibraryName
                (strLower idblock.rnaTypeName ++ "-" ++ idblock.name),
              Effect.userRemap idblock r])
      else (.assertionFailedLibraryNone, effs)

/-- `BlenderExitCodes`. -/
inductive BlenderExitCodes where
  | OK
  | ERROR_SINGLE_THINGY_NOT_FOUND
  | ERROR_NOT_IMPLEMENTED_YET
deriving DecidableEq

/-- `BlenderExitCodes(returncode)`: `none` models the `ValueError` Python
raises on an unlisted return code. -/
def BlenderExitCodes.ofCode : Nat → Option BlenderExitCodes
  | 0 => some .OK
  | 7 => some .ERROR_SINGLE_THINGY_NOT_FOUND
  | 13 => some .ERROR_NOT_IMPLEMENTED_YET
  | _ => none

/-- What the launched subprocess does: run past the timeout, or exit with a
return code. -/
inductive SubprocOutcome where
  | timeout
  | exit (code : Nat)

/-- The exceptions `run_blender` can raise. -/
inductive RunError where
  | timeoutExpired
  | invalidExitCode (c : Nat)
  | blenderError (e : BlenderExitCodes)
deriving DecidableEq

/-- `__init__.run_blender`: on timeout the subprocess is killed and
`TimeoutExpired` is re-raised; an unknown exit code raises `ValueError`; a
known non-OK code raises `RuntimeError`; only exit code 0 returns normally. -/
def run_blender (outcome : SubprocOutcome) : Except RunError Unit :=
  match outcome with
  | .timeout => .error .timeoutExpired
  | .exit c =>
    match BlenderExitCodes.ofCode c with
    | none => .error (.invalidExitCode c)
    | some .OK => .ok ()
    | some e => .error (.blenderError e)

/-- The `for idblock in idblocks: ... run_blender([...])` loop of
`OBJECT_OT_splode.execute`'s cycle handling: `oc` tells how the subprocess
launched for each idblock behaves. Returns the idblocks for which a
subprocess was launched, in order, and the exception (if any) that escaped
the loop; an exception propagates immediately, so no later idblock is
processed. -/
def relinkLoop (oc : α → SubprocOutcome) : List α → List α × Option RunError
  | [] => ([], none)
  | x :: xs =>
    match run_blender (oc x) with
    | .ok _ =>
      let p := relinkLoop oc xs
      (x :: p.1, p.2)
    | .error e => ([x], some e)

end Splode


namespace Splode

variable {α : Type} [DecidableEq α]

/-! ### Set-like list helpers -/

theorem subsetB_iff {a b : List α} : subsetB a b = true ↔ ∀ x ∈ a, x ∈ b := by
  simp [subsetB, List.all_eq_true]

theorem mem_dedupAux : ∀ (l seen : List α) (x : α),
    x ∈ dedupAux seen l ↔ x ∈ l ∧ x ∉ seen := by
  intro l
  induction l with
  | nil => intro seen x; simp [dedupAux]
  | cons y ys ih =>
    intro seen x
    simp only [dedupAux]
    by_cases hy : y ∈ seen
    · rw [if_pos hy, ih]
      constructor
      · rintro ⟨h1, h2⟩
        exact ⟨List.mem_cons_of_mem _ h1, h2⟩
      · rintro ⟨h1, h2⟩
        rcases List.mem_cons.1 h1 with rfl | h1
        · exact absurd hy h2
        · exact ⟨h1, h2⟩
    · rw [if_neg hy]
      constructor
      · intro h
        rcases List.mem_cons.1 h with rfl | h
        · exact ⟨List.mem_cons_self _ _, hy⟩
        · obtain ⟨h1, h2⟩ := (ih _ _).1 h
          exact ⟨List.mem_cons_of_mem _ h1, fun hs => h2 (List.mem_cons_of_mem _ hs)⟩
      · rintro ⟨h1, h2⟩
        rcases List.mem_cons.1 h1 with rfl | h1
        · exact List.mem_cons_self _ _
        · by_cases hxy : x = y
          · exact hxy ▸ List.mem_cons_self _ _
          · refine List.mem_cons_of_mem _ ((ih _ _).2 ⟨h1, fun hs => ?_⟩)
            rcases List.mem_cons.1 hs with h3 | h3
            · exact hxy h3
            · exact h2 h3

theorem mem_dedupF {l : List α} {x : α} : x ∈ dedupF l ↔ x ∈ l := by
  simp [dedupF, mem_dedupAux]

theorem subsetB_dedupF {a b : List α} :
    subsetB (dedupF a) (dedupF b) = subsetB a b := by
  by_cases h : subsetB a b = true
  · rw [h]
    rw [subsetB_iff] at h ⊢
    intro x hx
    rw [mem_dedupF] at hx ⊢
    exact h x hx
  · have h2 : subsetB a b = false := Bool.eq_false_iff.2 h
    rw [h2]
    refine Bool.eq_false_iff.2 fun hT => h ?_
    rw [subsetB_iff] at hT ⊢
    intro x hx
    have := hT x (mem_dedupF.2 hx)
    exact mem_dedupF.1 this

/-! ### unify_cycles lemmas -/

theorem mem_unifyScan {cs u : List α} :
    ∀ {l : List (List α)}, u ∈ unifyScan cs l → u ∈ l ∨ u = cs := by
  intro l
  induction l with
  | nil => intro h; simp only [unifyScan, List.mem_singleton] at h; exact Or.inr h
  | cons o rest ih =>
    intro h
    simp only [unifyScan] at h
    by_cases h1 : subsetB cs o = true
    · rw [if_pos h1] at h; exact Or.inl h
    · rw [if_neg h1] at h
      by_cases h2 : subsetB o cs = true
      · rw [if_pos h2] at h
        rcases List.mem_append.1 h with h3 | h3
        · exact Or.inl (List.mem_cons_of_mem _ h3)
        · exact Or.inr (List.mem_singleton.1 h3)
      · rw [if_neg h2] at h
        rcases List.mem_cons.1 h with h3 | h3
        · exact Or.inl (h3 ▸ List.mem_cons_self _ _)
        · rcases ih h3 with h4 | h4
          · exact Or.inl (List.mem_cons_of_mem _ h4)
          · exact Or.inr h4

theorem mem_unifyStep {unified : List (List α)} {c u : List α}
    (h : u ∈ unifyStep unified c) : u ∈ unified ∨ u = dedupF c := by
  unfold unifyStep at h
  by_cases hany : (unified.any fun o => sEq o (dedupF c)) = true
  · rw [if_pos hany] at h; exact Or.inl h
  · rw [if_neg hany] at h; exact mem_unifyScan h

theorem mem_unify_foldl :
    ∀ (cycles acc : List (List α)) (u : List α),
      u ∈ List.foldl unifyStep acc cycles →
      u ∈ acc ∨ ∃ c ∈ cycles, u = dedupF c := by
  intro cycles
  induction cycles with
  | nil => intro acc u h; exact Or.inl h
  | cons c cs ih =>
    intro acc u h
    rcases ih _ u h with h1 | ⟨c2, hc2, hu⟩
    · rcases mem_unifyStep h1 with h2 | h2
      · exact Or.inl h2
      · exact Or.inr ⟨c, List.mem_cons_self _ _, h2⟩
    · exact Or.inr ⟨c2, List.mem_cons_of_mem _ hc2, hu⟩

theorem pairwise_unifyScan {cs : List α} :
    ∀ {l : List (List α)},
      List.Pairwise (fun a b => sEq a b = false) l →
      (∀ o ∈ l, sEq o cs = false) →
      List.Pairwise (fun a b => sEq a b = false) (unifyScan cs l) := by
  intro l
  induction l with
  | nil => intro _ _; simp [unifyScan]
  | cons o rest ih =>
    intro hp hno
    rw [List.pairwise_cons] at hp
    obtain ⟨ho, hrest⟩ := hp
    simp only [unifyScan]
    by_cases h1 : subsetB cs o = true
    · rw [if_pos h1]; exact List.pairwise_cons.2 ⟨ho, hrest⟩
    · rw [if_neg h1]
      by_cases h2 : subsetB o cs = true
      · rw [if_pos h2]
        rw [List.pairwise_append]
        refine ⟨hrest, ?_, ?_⟩
        · simp
        · intro a ha b hb
          rw [List.mem_singleton] at hb
          subst hb
          exact hno a (List.mem_cons_of_mem _ ha)
      · rw [if_neg h2]
        refine List.pairwise_cons.2
          ⟨?_, ih hrest fun o2 ho2 => hno o2 (List.mem_cons_of_mem _ ho2)⟩
        intro u hu
        rcases mem_unifyScan hu with h3 | h3
        · exact ho u h3
        · exact h3 ▸ hno o (List.mem_cons_self _ _)

theorem pairwise_unifyStep {l : List (List α)} {c : List α}
    (hp : List.Pairwise (fun a b => sEq a b = false) l) :
    List.Pairwise (fun a b => sEq a b = false) (unifyStep l c) := by
  unfold unifyStep
  by_cases hany : (l.any fun o => sEq o (dedupF c)) = true
  · rw [if_pos hany]; exact hp
  · rw [if_neg hany]
    have h0 : (l.any fun o => sEq o (dedupF c)) = false := Bool.eq_false_iff.2 hany
    rw [List.any_eq_false] at h0
    exact pairwise_unifyScan hp fun o ho => Bool.eq_false_iff.2 (h0 o ho)

theorem pairwise_unify_foldl :
    ∀ (cycles acc : List (List α)),
      List.Pairwise (fun a b => sEq a b = false) acc →
      List.Pairwise (fun a b => sEq a b = false) (List.foldl unifyStep acc cycles) := by
  intro cycles
  induction cycles with
  | nil => intro acc h; exact h
  | cons c cs ih => intro acc h; exact ih _ (pairwise_unifyStep h)

end Splode

namespace Splode

variable {α : Type} [DecidableEq α]

/-- C2 (code bug): the claim says `assert_disjoint` never fails on
`unify_cycles`' own output when the cycles come from `find_cycles`. On the
graph `{B: {A, C}, A: {B}, C: {B}}` (keys in order `[B, A, C]`, encoded
`B = 2, A = 1, C = 3`) `find_cycles` reports the walk paths
`[B,A], [B,C], [A,B], [A,B,C], [C,B,A], [C,B]`, `unify_cycles` keeps the two
overlapping groups `{B,C}` and `{A,B,C}`, and the code's own
`assert_disjoint` raises `AssertionError`. -/
theorem C2_assert_disjoint_fails_on_own_output :
    find_cycles [(2, [1, 3]), (1, [2]), (3, [2])] =
      [[2, 1], [2, 3], [1, 2], [1, 2, 3], [3, 2, 1], [3, 2]] ∧
    unify_cycles (find_cycles [(2, [1, 3]), (1, [2]), (3, [2])]) =
      [[2, 3], [1, 2, 3]] ∧
    (2 ∈ [2, 3] ∧ 2 ∈ [1, 2, 3]) ∧
    assertDisjoint (unify_cycles (find_cycles [(2, [1, 3]), (1, [2]), (3, [2])])) =
      false := by
  decide

/-- C4 (counterexample): on the input cycles `[[0], [1], [0, 1]]` the scan
replaces only the first kept subset `{0}`, so `unify_cycles` returns
`[{1}, {0, 1}]` in which the kept group `{1}` is a strict subset of the kept
group `{0, 1}` - refuting "no kept group is a strict subset or strict
superset of another kept group". -/
theorem C4_strict_subset_kept_counterexample :
    unify_cycles [[0], [1], [0, 1]] = [[1], [0, 1]] ∧
    [1] ∈ unify_cycles [[0], [1], [0, 1]] ∧
    [0, 1] ∈ unify_cycles [[0], [1], [0, 1]] ∧
    subsetB [1] [0, 1] = true ∧ subsetB [0, 1] [1] = false := by
  decide

/-- C4 (amended): for every finite list of input cycles, the incoming cycle
is discarded when an already-kept group is a superset and otherwise replaces
at most the first already-kept subset, so the groups returned by
`unify_cycles` are pairwise distinct as sets - but a kept group may remain a
strict subset of another kept group. -/
theorem C4_unify_groups_pairwise_distinct (cycles : List (List α)) :
    List.Pairwise (fun a b => sEq a b = false) (unify_cycles cycles) :=
  pairwise_unify_foldl cycles [] List.Pairwise.nil

/-- C5 (code bug): the claim says `bottom_up` yields every key exactly once,
the pre-yielded unused fake-user datablocks in particular not being yielded
again by the walk. But the pre-yield loop does not remove such a datablock
from `to_visit`, so on `{A: set()}` with `A.use_fake_user = True`
(`A` encoded as `1`) it is yielded twice. -/
theorem C5_fake_user_yielded_twice :
    bottom_up [(1, ([] : List Nat))] (fun _ => true) = [1, 1] ∧
    List.count 1 (bottom_up [(1, ([] : List Nat))] (fun _ => true)) = 2 := by
  decide

/-- C1 (counterexample): the graph `{A: {B}, B: set()}` (`A = 1, B = 2`) is
acyclic (the identity rank function increases along its only used-by edge),
`B` uses `A` and is an unused fake-user datablock, so it is pre-yielded
before the walk: the output is `[B, A, B]` and the first occurrence of `A`
is *not* strictly before the first occurrence of `B`. -/
theorem C1_bottom_up_order_counterexample :
    (∀ p ∈ [(1, [2]), (2, ([] : List Nat))], ∀ u ∈ p.2, p.1 < u) ∧
    bottom_up [(1, [2]), (2, ([] : List Nat))] (fun x => x == 2) = [2, 1, 2] ∧
    ¬ (bottom_up [(1, [2]), (2, ([] : List Nat))] (fun x => x == 2)).indexOf 1 <
        (bottom_up [(1, [2]), (2, ([] : List Nat))] (fun x => x == 2)).indexOf 2 := by
  decide

/-- C10: every group returned by `unify_cycles` is exactly the element set of
one of the input cycles (no group is ever formed as a union of several
cycles), and two overlapping cycles of which neither is a subset of the
other are kept as two distinct overlapping groups. -/
theorem C10_unify_groups_are_input_cycles :
    (∀ (cycles : List (List α)) (u : List α),
      u ∈ unify_cycles cycles → ∃ c ∈ cycles, u = dedupF c) ∧
    (∀ c1 c2 : List α, (∃ x, x ∈ c1 ∧ x ∈ c2) →
      subsetB c1 c2 = false → subsetB c2 c1 = false →
      unify_cycles [c1, c2] = [dedupF c1, dedupF c2]) := by
  constructor
  · intro cycles u h
    rcases mem_unify_foldl cycles [] u h with h1 | h1
    · exact absurd h1 (List.not_mem_nil _)
    · exact h1
  · intro c1 c2 _hover h12 h21
    have hd12 : subsetB (dedupF c1) (dedupF c2) = false := by
      rw [subsetB_dedupF]; exact h12
    have hd21 : subsetB (dedupF c2) (dedupF c1) = false := by
      rw [subsetB_dedupF]; exact h21
    have hsEq : sEq (dedupF c1) (dedupF c2) = false := by
      simp [sEq, hd12]
    show List.foldl unifyStep [] [c1, c2] = [dedupF c1, dedupF c2]
    have s1 : unifyStep [] c1 = [dedupF c1] := by
      simp [unifyStep, unifyScan]
    simp only [List.foldl, s1]
    unfold unifyStep
    have hany : ([dedupF c1].any fun o => sEq o (dedupF c2)) = false := by
      simp [hsEq]
    rw [hany]
    simp only [Bool.false_eq_true, if_false]
    simp [unifyScan, hd12, hd21]

/-- C10 (witness): the two overlapping incomparable cycles `[0,1]` and
`[1,2]` are kept as two distinct overlapping groups. -/
theorem C10_unify_groups_are_input_cycles_witness :
    unify_cycles [[0, 1], [1, 2]] = [dedupF [0, 1], dedupF [1, 2]] :=
  (@C10_unify_groups_are_input_cycles Nat _).2 [0, 1] [1, 2]
    ⟨1, by decide, by decide⟩ (by decide) (by decide)

end Splode

namespace Splode

variable {α : Type} [DecidableEq α]

/-- C3 (code bug): with more than one imported handle and none of the
handles of the original's kind matching it by name, `libify` logs "not
replacing" but then unconditionally evaluates `replacement.name` in the next
`log.info` call (and would go on to `assert replacement.library` and
`idblock.user_remap(replacement)`), so the call raises `AttributeError`
instead of merely skipping the remap: the remap is indeed not performed, but
the operation does fail in another way. -/
theorem C3_ambiguous_resolution_raises_attribute_error :
    (libify { name := "M1", rnaTypeName := "Mesh" } "//" true
        [("meshes", { name := "X", rnaTypeName := "Mesh", library := some "lib" }),
          ("meshes", { name := "Y", rnaTypeName := "Mesh", library := some "lib" })]).1 =
      .attributeErrorNoneReplacement ∧
    ((libify { name := "M1", rnaTypeName := "Mesh" } "//" true
        [("meshes", { name := "X", rnaTypeName := "Mesh", library := some "lib" }),
          ("meshes", { name := "Y", rnaTypeName := "Mesh", library := some "lib" })]).2.all
      fun e => !e.isRemap) = true := by
  decide

/-- C7: extraction is idempotent on already-extracted datablocks: whenever
`idblock.library` is set, `libify` returns the already-done marker and
produces no effect at all (no directory creation, no write, no link load, no
library rename, no remap), for any root path, write flag and import
oracle - so any number of repeated calls behave identically. -/
theorem C7_libify_already_libified_noop (db : IDBlock) (root : String)
    (w : Bool) (li : List (String × IDBlock)) (h : db.library.isSome = true) :
    libify db root w li = (.alreadyLibified, []) := by
  unfold libify
  rw [h]
  simp

/-- C7 (witness): a concrete already-libified mesh datablock. -/
theorem C7_libify_already_libified_noop_witness :
    ({ name := "M1", rnaTypeName := "Mesh", library := some "//_meshes/M1.blend" }
        : IDBlock).library.isSome = true ∧
    libify { name := "M1", rnaTypeName := "Mesh", library := some "//_meshes/M1.blend" }
        "//" true [] = (.alreadyLibified, []) :=
  ⟨rfl, C7_libify_already_libified_noop _ _ _ _ rfl⟩

/-- C9 (counterexample): the claim says a subprocess failure for one cycle
group's secondary pass never aborts processing of the remaining groups. But
`run_blender` re-raises `TimeoutExpired` (and raises `RuntimeError` for
non-OK exit codes) and the loop in `OBJECT_OT_splode.execute` does not catch
anything: when the subprocess for the first idblock times out, the second
idblock is never processed. -/
theorem C9_subprocess_failure_aborts_counterexample :
    relinkLoop (fun n => if n == 1 then .timeout else .exit 0) [1, 2] =
      ([1], some .timeoutExpired) ∧
    2 ∉ (relinkLoop (fun n => if n == 1 then .timeout else .exit 0) [1, 2]).1 := by
  decide

/-- C9 (amended): a subprocess timeout or non-OK exit status raises an
exception that aborts the entire relink loop: exactly the idblocks up to and
including the failing one are processed, and everything after it is skipped;
the exception propagates out of the run. -/
theorem C9_subprocess_failure_aborts_run (oc : α → SubprocOutcome)
    (pre : List α) (x : α) (post : List α) (e : RunError)
    (hpre : ∀ p ∈ pre, run_blender (oc p) = .ok ())
    (hx : run_blender (oc x) = .error e) :
    relinkLoop oc (pre ++ x :: post) = (pre ++ [x], some e) := by
  induction pre with
  | nil => simp [relinkLoop, hx]
  | cons p ps ih =>
    have hp : run_blender (oc p) = .ok () := hpre p (List.mem_cons_self _ _)
    have ih2 := ih fun q hq => hpre q (List.mem_cons_of_mem _ hq)
    simp only [List.cons_append, relinkLoop, hp]
    rw [show ps.append (x :: post) = ps ++ x :: post from rfl, ih2]

/-- C9 (witness): with idblocks `[0, 1, 2]`, the subprocess for `0`
succeeding and the one for `1` timing out, the loop stops after `1`. -/
theorem C9_subprocess_failure_aborts_run_witness :
    relinkLoop (fun n => if n == 1 then SubprocOutcome.timeout else .exit 0)
        ([0] ++ 1 :: [2]) = ([0] ++ [1], some .timeoutExpired) :=
  C9_subprocess_failure_aborts_run _ [0] 1 [2] .timeoutExpired
    (by intro p hp; simp at hp; subst hp; rfl) rfl

end Splode

namespace Splode

/-! ### find_main_idblocks lemmas -/

theorem foldl_min_some (f : IDBlock → Int) :
    ∀ (l : List IDBlock) (m0 : IDBlock),
      ∃ m, List.foldl
          (fun acc x =>
            match acc with
            | none => some x
            | some m => if f x < f m then some x else acc)
          (some m0) l = some m ∧
        (m = m0 ∨ m ∈ l) ∧ f m ≤ f m0 ∧ ∀ x ∈ l, f m ≤ f x := by
  intro l
  induction l with
  | nil =>
    intro m0
    exact ⟨m0, rfl, Or.inl rfl, le_refl _, by simp⟩
  | cons x xs ih =>
    intro m0
    simp only [List.foldl]
    by_cases h : f x < f m0
    · rw [if_pos h]
      obtain ⟨m, hm, hmem, hle, hall⟩ := ih x
      refine ⟨m, hm, ?_, ?_, ?_⟩
      · rcases hmem with rfl | hmem
        · exact Or.inr (List.mem_cons_self _ _)
        · exact Or.inr (List.mem_cons_of_mem _ hmem)
      · exact le_trans hle (le_of_lt h)
      · intro y hy
        rcases List.mem_cons.1 hy with rfl | hy
        · exact hle
        · exact hall y hy
    · rw [if_neg h]
      obtain ⟨m, hm, hmem, hle, hall⟩ := ih m0
      refine ⟨m, hm, ?_, hle, ?_⟩
      · rcases hmem with rfl | hmem
        · exact Or.inl rfl
        · exact Or.inr (List.mem_cons_of_mem _ hmem)
      · intro y hy
        rcases List.mem_cons.1 hy with rfl | hy
        · exact le_trans hle (not_lt.1 h)
        · exact hall y hy

theorem minByFirst_spec (f : IDBlock → Int) (l : List IDBlock) (hne : l ≠ []) :
    ∃ m, minByFirst f l = some m ∧ m ∈ l ∧ ∀ x ∈ l, f m ≤ f x := by
  match l, hne with
  | x :: xs, _ =>
    unfold minByFirst
    simp only [List.foldl]
    obtain ⟨m, hm, hmem, _hle, hall⟩ := foldl_min_some f xs x
    refine ⟨m, hm, ?_, ?_⟩
    · rcases hmem with rfl | hmem
      · exact List.mem_cons_self _ _
      · exact List.mem_cons_of_mem _ hmem
    · intro y hy
      rcases List.mem_cons.1 hy with rfl | hy
      · exact _hle
      · exact hall y hy

theorem forall₂_mem_left {R : IDBlock → List IDBlock → Prop} :
    ∀ {ms : List IDBlock} {cs : List (List IDBlock)}, List.Forall₂ R ms cs →
      ∀ m ∈ ms, ∃ c ∈ cs, R m c := by
  intro ms cs h
  induction h with
  | nil => intro m hm; exact absurd hm (List.not_mem_nil _)
  | cons hR _hrest ih =>
    intro m hm
    rcases List.mem_cons.1 hm with rfl | hm
    · exact ⟨_, List.mem_cons_self _ _, hR⟩
    · obtain ⟨c, hc, hRc⟩ := ih m hm
      exact ⟨c, List.mem_cons_of_mem _ hc, hRc⟩

/-- C6: for every set of pairwise-disjoint nonempty cycle groups and every
priority mapping, `find_main_idblocks` succeeds and returns exactly one
carrier per group - a member of that group whose `order` value (the refined
`OBJECT_<sub-type>` key falling back to `OBJECT`, default `0`) is minimal in
the group - while the second returned set contains exactly the remaining
members of all groups, so the two sets are disjoint and together cover the
union of the groups. -/
theorem C6_find_main_idblocks_correct (cycles : List (List IDBlock))
    (tord : List (String × Int))
    (hne : ∀ c ∈ cycles, c ≠ [])
    (hnd : ∀ c ∈ cycles, c.Nodup)
    (hdisj : List.Pairwise (fun c d => ∀ x ∈ c, x ∉ d) cycles) :
    ∃ mains others,
      find_main_idblocks cycles tord = some (mains, others) ∧
      List.Forall₂ (fun m c => m ∈ c ∧ ∀ x ∈ c, orderKey tord m ≤ orderKey tord x)
        mains cycles ∧
      mains.Nodup ∧
      (∀ x, x ∈ others ↔ ∃ p ∈ mains.zip cycles, x ∈ p.2 ∧ x ≠ p.1) ∧
      (∀ m ∈ mains, m ∉ others) ∧
      (∀ x, (x ∈ mains ∨ x ∈ others) ↔ ∃ c ∈ cycles, x ∈ c) := by
  induction cycles with
  | nil =>
    exact ⟨[], [], rfl, List.Forall₂.nil, List.nodup_nil, by simp, by simp, by simp⟩
  | cons c cs ih =>
    obtain ⟨hdc, hdcs⟩ := List.pairwise_cons.1 hdisj
    obtain ⟨mains, others, heq, hfa, hndm, hoth, hdisj2, hcov⟩ :=
      ih (fun d hd => hne d (List.mem_cons_of_mem _ hd))
        (fun d hd => hnd d (List.mem_cons_of_mem _ hd)) hdcs
    obtain ⟨m, hm, hmmem, hmin⟩ :=
      minByFirst_spec (orderKey tord) c (hne c (List.mem_cons_self _ _))
    refine ⟨m :: mains, c.filter (· ≠ m) ++ others, ?_, ?_, ?_, ?_, ?_, ?_⟩
    · simp [find_main_idblocks, hm, heq]
    · exact List.Forall₂.cons ⟨hmmem, hmin⟩ hfa
    · refine List.nodup_cons.2 ⟨?_, hndm⟩
      intro hmm
      obtain ⟨c2, hc2, hR⟩ := forall₂_mem_left hfa m hmm
      exact hdc c2 hc2 m hmmem hR.1
    · intro x
      rw [List.zip_cons_cons]
      constructor
      · intro hx
        rcases List.mem_append.1 hx with hx | hx
        · obtain ⟨h1, h2⟩ := List.mem_filter.1 hx
          exact ⟨(m, c), List.mem_cons_self _ _, h1, of_decide_eq_true h2⟩
        · obtain ⟨p, hp, h1, h2⟩ := (hoth x).1 hx
          exact ⟨p, List.mem_cons_of_mem _ hp, h1, h2⟩
      · rintro ⟨p, hp, h1, h2⟩
        rcases List.mem_cons.1 hp with rfl | hp
        · exact List.mem_append.2
            (Or.inl (List.mem_filter.2 ⟨h1, decide_eq_true h2⟩))
        · exact List.mem_append.2 (Or.inr ((hoth x).2 ⟨p, hp, h1, h2⟩))
    · intro m2 hm2
      rcases List.mem_cons.1 hm2 with rfl | hm2
      · intro hbad
        rcases List.mem_append.1 hbad with hbad | hbad
        · obtain ⟨_, hne2⟩ := List.mem_filter.1 hbad
          exact (of_decide_eq_true hne2) rfl
        · obtain ⟨p, hp, h1, _⟩ := (hoth m2).1 hbad
          obtain ⟨a, b⟩ := p
          have hpc : b ∈ cs := (List.of_mem_zip hp).2
          exact hdc b hpc m2 hmmem h1
      · intro hbad
        rcases List.mem_append.1 hbad with hbad | hbad
        · obtain ⟨c2, hc2, hR⟩ := forall₂_mem_left hfa m2 hm2
          obtain ⟨hm2c, _⟩ := List.mem_filter.1 hbad
          exact hdc c2 hc2 m2 hm2c hR.1
        · exact hdisj2 m2 hm2 hbad
    · intro x
      constructor
      · rintro (hx | hx)
        · rcases List.mem_cons.1 hx with rfl | hx
          · exact ⟨c, List.mem_cons_self _ _, hmmem⟩
          · obtain ⟨c2, hc2, hxc⟩ := (hcov x).1 (Or.inl hx)
            exact ⟨c2, List.mem_cons_of_mem _ hc2, hxc⟩
        · rcases List.mem_append.1 hx with hx | hx
          · exact ⟨c, List.mem_cons_self _ _, (List.mem_filter.1 hx).1⟩
          · obtain ⟨c2, hc2, hxc⟩ := (hcov x).1 (Or.inr hx)
            exact ⟨c2, List.mem_cons_of_mem _ hc2, hxc⟩
      · rintro ⟨c2, hc2, hxc⟩
        rcases List.mem_cons.1 hc2 with rfl | hc2
        · by_cases hxm : x = m
          · exact Or.inl (hxm ▸ List.mem_cons_self _ _)
          · exact Or.inr (List.mem_append.2
              (Or.inl (List.mem_filter.2 ⟨hxc, decide_eq_true hxm⟩)))
        · rcases (hcov x).2 ⟨c2, hc2, hxc⟩ with h | h
          · exact Or.inl (List.mem_cons_of_mem _ h)
          · exact Or.inr (List.mem_append.2 (Or.inr h))

end Splode

namespace Splode

/-- C6 (witness): the spec's example group `{Armature1, Object1}` under
`SPLODE_ID_TYPE_ORDER`: the armature-type object carries (priority -20
beats -10), the plain object is embedded. -/
theorem C6_find_main_idblocks_correct_witness :
    (∀ c ∈ [[({ name := "Object1", rnaTypeName := "Object", objType := "MESH" } : IDBlock),
        { name := "Armature1", rnaTypeName := "Object", objType := "ARMATURE" }]],
      c ≠ ([] : List IDBlock)) ∧
    (∀ c ∈ [[({ name := "Object1", rnaTypeName := "Object", objType := "MESH" } : IDBlock),
        { name := "Armature1", rnaTypeName := "Object", objType := "ARMATURE" }]],
      List.Nodup c) ∧
    List.Pairwise (fun c d => ∀ x ∈ c, x ∉ d)
      [[({ name := "Object1", rnaTypeName := "Object", objType := "MESH" } : IDBlock),
        { name := "Armature1", rnaTypeName := "Object", objType := "ARMATURE" }]] ∧
    ∃ mains others,
      find_main_idblocks
          [[{ name := "Object1", rnaTypeName := "Object", objType := "MESH" },
            { name := "Armature1", rnaTypeName := "Object", objType := "ARMATURE" }]]
          SPLODE_ID_TYPE_ORDER = some (mains, others) ∧
      List.Forall₂
        (fun m c => m ∈ c ∧ ∀ x ∈ c,
          orderKey SPLODE_ID_TYPE_ORDER m ≤ orderKey SPLODE_ID_TYPE_ORDER x)
        mains
        [[{ name := "Object1", rnaTypeName := "Object", objType := "MESH" },
          { name := "Armature1", rnaTypeName := "Object", objType := "ARMATURE" }]] ∧
      mains.Nodup ∧
      (∀ x, x ∈ others ↔ ∃ p ∈ mains.zip
          [[({ name := "Object1", rnaTypeName := "Object", objType := "MESH" } : IDBlock),
            { name := "Armature1", rnaTypeName := "Object", objType := "ARMATURE" }]],
        x ∈ p.2 ∧ x ≠ p.1) ∧
      (∀ m ∈ mains, m ∉ others) ∧
      (∀ x, (x ∈ mains ∨ x ∈ others) ↔ ∃ c ∈
          [[({ name := "Object1", rnaTypeName := "Object", objType := "MESH" } : IDBlock),
            { name := "Armature1", rnaTypeName := "Object", objType := "ARMATURE" }]],
        x ∈ c) :=
  ⟨by decide, by decide, by decide,
    C6_find_main_idblocks_correct _ _ (by decide) (by decide) (by decide)⟩

end Splode

namespace Splode

variable {α : Type} [DecidableEq α]

/-- C8 (counterexample): on the graph with a lead-in edge into a 2-cycle
(`user_map = {L: {B}, B: {C}, C: {B}}`, encoded `L = 0, B = 1, C = 2`), the
walk from `L` revisits `B` with path `[L, B, C]` and the code reports the
whole path `[L, B, C]` - not the slice `[B, C]` from the revisited node -
and the reported sequence contains `L`, which lies outside the loop: there
is no edge back to `L`, so `[L, B, C]` is not a directed loop. -/
theorem C8_reported_cycle_counterexample :
    [0, 1, 2] ∈ find_cycles [(0, [1]), (1, [2]), (2, [1])] ∧
    [0, 1, 2] ≠ [1, 2] ∧
    ¬ (0 ∈ lookupUsers [(0, [1]), (1, [2]), (2, [1])] 2) := by
  decide

theorem chainF_sound (g : List (α × List α)) :
    ∀ (f : Nat) (s : α) (pre c : List α),
      pre.Nodup →
      List.Chain' (fun a b => b ∈ lookupUsers g a) pre →
      (∀ last ∈ pre.getLast?, s ∈ lookupUsers g last ∧ s ≠ last) →
      c ∈ chainF g f s pre →
      c.Nodup ∧ 2 ≤ c.length ∧
        List.Chain' (fun a b => b ∈ lookupUsers g a) c ∧
        ∃ last ∈ c.getLast?, ∃ r ∈ c, r ∈ lookupUsers g last ∧ r ≠ last := by
  intro f
  induction f with
  | zero => intro s pre c _ _ _ hc; exact absurd hc (List.not_mem_nil _)
  | succ f ih =>
    intro s pre c hnd hch hlast hc
    simp only [chainF] at hc
    by_cases hs : s ∈ pre
    · rw [if_pos hs] at hc
      by_cases hlen : pre.length > 1
      · rw [if_pos hlen] at hc
        rw [List.mem_singleton] at hc
        subst hc
        have hpre_ne : c ≠ [] := by
          intro h; rw [h] at hs; exact absurd hs (List.not_mem_nil _)
        refine ⟨hnd, hlen, hch, c.getLast hpre_ne, ?_, s, hs, ?_⟩
        · simp [List.getLast?_eq_getLast c hpre_ne]
        · exact hlast (c.getLast hpre_ne)
            (by simp [List.getLast?_eq_getLast c hpre_ne])
      · rw [if_neg hlen] at hc
        exact absurd hc (List.not_mem_nil _)
    · rw [if_neg hs] at hc
      rw [List.mem_flatMap] at hc
      obtain ⟨n, hn, hcn⟩ := hc
      by_cases hns : n = s
      · rw [if_pos hns] at hcn; exact absurd hcn (List.not_mem_nil _)
      · rw [if_neg hns] at hcn
        refine ih n (pre ++ [s]) c ?_ ?_ ?_ hcn
        · refine List.Nodup.append hnd (List.nodup_singleton s) ?_
          intro a ha hb
          rw [List.mem_singleton] at hb
          subst hb
          exact hs ha
        · rw [List.chain'_append]
          refine ⟨hch, List.chain'_singleton _, fun x hx y hy => ?_⟩
          simp only [List.head?_cons, Option.mem_some_iff] at hy
          subst hy
          exact (hlast x hx).1
        · intro last hlast2
          have hgl : (pre ++ [s]).getLast? = some s := by
            rw [List.getLast?_concat]
          rw [hgl, Option.mem_some_iff] at hlast2
          subst hlast2
          exact ⟨hn, fun h => hns h⟩

/-- C8 (amended): every sequence reported by `find_cycles` is the entire walk
path accumulated from the walk's starting key up to the node whose successor
was revisited: a duplicate-free sequence of at least 2 datablocks linked by
consecutive used-by edges, some member `r` of which is a user of the last
element and differs from it (so the suffix of the path starting at `r` forms
a directed loop, while the elements before `r` are lead-in nodes that can lie
outside the loop); a node referencing itself is skipped by the walk and never
closes a reported cycle. -/
theorem C8_find_cycles_reports_walk_paths (g : List (α × List α)) (c : List α)
    (hc : c ∈ find_cycles g) :
    c.Nodup ∧ 2 ≤ c.length ∧
      List.Chain' (fun a b => b ∈ lookupUsers g a) c ∧
      ∃ last ∈ c.getLast?, ∃ r ∈ c, r ∈ lookupUsers g last ∧ r ≠ last := by
  rw [find_cycles, List.mem_flatMap] at hc
  obtain ⟨k, _, hck⟩ := hc
  exact chainF_sound g _ k [] c List.nodup_nil List.chain'_nil (by simp) hck

/-- C8 (witness): the reported cycle `[1, 2]` of the 2-cycle graph has the
full structure guaranteed by `C8_find_cycles_reports_walk_paths`. -/
theorem C8_find_cycles_reports_walk_paths_witness :
    [1, 2] ∈ find_cycles [(1, [2]), (2, [1])] ∧
    (([1, 2] : List Nat).Nodup ∧ 2 ≤ ([1, 2] : List Nat).length ∧
      List.Chain' (fun a b => b ∈ lookupUsers [(1, [2]), (2, [1])] a) [1, 2] ∧
      ∃ last ∈ ([1, 2] : List Nat).getLast?, ∃ r ∈ ([1, 2] : List Nat),
        r ∈ lookupUsers [(1, [2]), (2, [1])] last ∧ r ≠ last) :=
  ⟨by decide, C8_find_cycles_reports_walk_paths _ _ (by decide)⟩

end Splode

namespace Splode

variable {α : Type} [DecidableEq α]

/-! ### bottom_up: structural lemmas about the visit recursion -/

theorem visitF_succ (g : List (α × List α)) (f : Nat) (x : α) (tv : List α) :
    visitF g (f + 1) x tv =
      ((List.foldl (vstep g f) ([], tv) (revDeps g x)).1 ++ [x],
        (List.foldl (vstep g f) ([], tv) (revDeps g x)).2) := rfl

theorem visit_self_mem (g : List (α × List α)) (f : Nat) (x : α) (tv : List α) :
    x ∈ (visitF g f x tv).1 := by
  cases f with
  | zero => simp [visitF]
  | succ f => rw [visitF_succ]; exact List.mem_append_right _ (List.mem_singleton.2 rfl)

theorem foldl_vstep_frame (g : List (α × List α)) (f : Nat) :
    ∀ (ds ys0 tv : List α),
      List.foldl (vstep g f) (ys0, tv) ds =
        (ys0 ++ (List.foldl (vstep g f) ([], tv) ds).1,
          (List.foldl (vstep g f) ([], tv) ds).2) := by
  intro ds
  induction ds with
  | nil => intro ys0 tv; simp
  | cons d rest ih =>
    intro ys0 tv
    simp only [List.foldl]
    by_cases hd : d ∈ tv
    · rw [show vstep g f (ys0, tv) d =
          (ys0 ++ (visitF g f d (tv.erase d)).1, (visitF g f d (tv.erase d)).2) from
        by simp [vstep, hd]]
      rw [show vstep g f ([], tv) d =
          ((visitF g f d (tv.erase d)).1, (visitF g f d (tv.erase d)).2) from
        by simp [vstep, hd]]
      rw [ih (ys0 ++ (visitF g f d (tv.erase d)).1) ((visitF g f d (tv.erase d)).2),
        ih ((visitF g f d (tv.erase d)).1) ((visitF g f d (tv.erase d)).2)]
      simp [List.append_assoc]
    · rw [show vstep g f (ys0, tv) d = (ys0, tv) from by simp [vstep, hd]]
      rw [show vstep g f ([], tv) d = ([], tv) from by simp [vstep, hd]]
      exact ih ys0 tv

theorem foldl_vstep_basic_of (g : List (α × List α)) (f : Nat)
    (hv : ∀ (x : α) (tv : List α),
      (visitF g f x tv).2.Sublist tv ∧
      (∀ y ∈ (visitF g f x tv).1, y = x ∨ y ∈ tv) ∧
      (∀ z ∈ tv, z ∈ (visitF g f x tv).1 ∨ z ∈ (visitF g f x tv).2)) :
    ∀ (ds tv : List α),
      (List.foldl (vstep g f) ([], tv) ds).2.Sublist tv ∧
      (∀ y ∈ (List.foldl (vstep g f) ([], tv) ds).1, y ∈ tv) ∧
      (∀ z ∈ tv, z ∈ (List.foldl (vstep g f) ([], tv) ds).1 ∨
        z ∈ (List.foldl (vstep g f) ([], tv) ds).2) := by
  intro ds
  induction ds with
  | nil =>
    intro tv
    refine ⟨List.Sublist.refl _, ?_, ?_⟩
    · intro y hy; exact absurd hy (List.not_mem_nil _)
    · intro z hz; exact Or.inr hz
  | cons d rest ihd =>
    intro tv
    simp only [List.foldl]
    by_cases hd : d ∈ tv
    · rw [show vstep g f ([], tv) d =
          ((visitF g f d (tv.erase d)).1, (visitF g f d (tv.erase d)).2) from
        by simp [vstep, hd]]
      rw [foldl_vstep_frame]
      obtain ⟨hsub, hsrc, hcov⟩ := hv d (tv.erase d)
      obtain ⟨hsub2, hsrc2, hcov2⟩ := ihd ((visitF g f d (tv.erase d)).2)
      have herase : (tv.erase d).Sublist tv := List.erase_sublist _ _
      refine ⟨?_, ?_, ?_⟩
      · exact hsub2.trans (hsub.trans herase)
      · intro y hy
        rcases List.mem_append.1 hy with hy | hy
        · rcases hsrc y hy with rfl | hy2
          · exact hd
          · exact herase.subset hy2
        · exact herase.subset (hsub.subset (hsrc2 y hy))
      · intro z hz
        by_cases hzd : z = d
        · subst hzd
          exact Or.inl (List.mem_append_left _ (visit_self_mem g f z _))
        · have hz2 : z ∈ tv.erase d := (List.mem_erase_of_ne hzd).2 hz
          rcases hcov z hz2 with h | h
          · exact Or.inl (List.mem_append_left _ h)
          · rcases hcov2 z h with h2 | h2
            · exact Or.inl (List.mem_append_right _ h2)
            · exact Or.inr h2
    · rw [show vstep g f ([], tv) d = ([], tv) from by simp [vstep, hd]]
      exact ihd tv

theorem visitF_basic (g : List (α × List α)) :
    ∀ (f : Nat) (x : α) (tv : List α),
      (visitF g f x tv).2.Sublist tv ∧
      (∀ y ∈ (visitF g f x tv).1, y = x ∨ y ∈ tv) ∧
      (∀ z ∈ tv, z ∈ (visitF g f x tv).1 ∨ z ∈ (visitF g f x tv).2) := by
  intro f
  induction f with
  | zero =>
    intro x tv
    refine ⟨List.Sublist.refl _, ?_, ?_⟩
    · intro y hy
      simp only [visitF, List.mem_singleton] at hy
      exact Or.inl hy
    · intro z hz; exact Or.inr hz
  | succ f ih =>
    intro x tv
    rw [visitF_succ]
    obtain ⟨hsub, hsrc, hcov⟩ := foldl_vstep_basic_of g f ih (revDeps g x) tv
    refine ⟨hsub, ?_, ?_⟩
    · intro y hy
      rcases List.mem_append.1 hy with hy | hy
      · exact Or.inr (hsrc y hy)
      · exact Or.inl (List.mem_singleton.1 hy)
    · intro z hz
      rcases hcov z hz with h | h
      · exact Or.inl (List.mem_append_left _ h)
      · exact Or.inr h

theorem foldl_vstep_basic (g : List (α × List α)) (f : Nat) :
    ∀ (ds tv : List α),
      (List.foldl (vstep g f) ([], tv) ds).2.Sublist tv ∧
      (∀ y ∈ (List.foldl (vstep g f) ([], tv) ds).1, y ∈ tv) ∧
      (∀ z ∈ tv, z ∈ (List.foldl (vstep g f) ([], tv) ds).1 ∨
        z ∈ (List.foldl (vstep g f) ([], tv) ds).2) :=
  foldl_vstep_basic_of g f (visitF_basic g f)

end Splode

namespace Splode

variable {α : Type} [DecidableEq α]

/-! ### revDeps and DClosedG lemmas -/

theorem rk_lt_of_mem_revDeps {g : List (α × List α)} {rk : α → Nat}
    (HR : RankOk g rk) {d y : α} (h : d ∈ revDeps g y) : rk d < rk y := by
  unfold revDeps at h
  rw [List.mem_map] at h
  obtain ⟨p, hp, rfl⟩ := h
  rw [List.mem_filter] at hp
  exact HR p hp.1 y (of_decide_eq_true hp.2)

theorem mem_keys_of_mem_revDeps {g : List (α × List α)} {d y : α}
    (h : d ∈ revDeps g y) : d ∈ keysOf g := by
  unfold revDeps at h
  rw [List.mem_map] at h
  obtain ⟨p, hp, rfl⟩ := h
  exact List.mem_map_of_mem _ (List.mem_filter.1 hp).1

theorem mem_revDeps_of_edge {g : List (α × List α)} {A B : α} {us : List α}
    (hA : (A, us) ∈ g) (hB : B ∈ us) : A ∈ revDeps g B :=
  List.mem_map_of_mem _ (List.mem_filter.2 ⟨hA, decide_eq_true hB⟩)

theorem DClosedG_nil (g : List (α × List α)) : DClosedG g [] := by
  intro i h
  simp at h

theorem DClosedG_append_singleton {g : List (α × List α)} {L : List α} {a : α}
    (hL : DClosedG g L) (ha : ∀ d ∈ revDeps g a, d ∈ L) :
    DClosedG g (L ++ [a]) := by
  intro i h d hd
  have hlen : i < L.length + 1 := by simpa using h
  by_cases hi : i < L.length
  · have hget : (L ++ [a]).get ⟨i, h⟩ = L.get ⟨i, hi⟩ := by
      rw [List.get_append i hi]
    rw [hget] at hd
    have hmem := hL i hi d hd
    have htake : (L ++ [a]).take i = L.take i := by
      rw [List.take_append_eq_append_take]
      have h0 : i - L.length = 0 := by omega
      rw [h0]
      simp
    rw [htake]
    exact hmem
  · have hi2 : i = L.length := by omega
    subst hi2
    have hget : (L ++ [a]).get ⟨L.length, h⟩ = a := by simp
    rw [hget] at hd
    have htake : (L ++ [a]).take L.length = L := List.take_left L [a]
    rw [htake]
    exact ha d hd

end Splode

namespace Splode

variable {α : Type} [DecidableEq α]

theorem visitF_spec_of (g : List (α × List α)) (rk : α → Nat) (HR : RankOk g rk)
    (f : Nat)
    (hIH : ∀ (x : α) (tv acc S : List α),
      tv.length < f → tv.Nodup → x ∉ tv →
      (∀ s ∈ S, rk x < rk s) → (∀ s ∈ S, s ∉ tv) → (∀ s ∈ S, s ∉ acc) →
      x ∉ acc →
      (∀ z ∈ keysOf g, z ∉ tv → z ∉ S → z ≠ x → z ∈ acc) →
      DClosedG g acc → acc.Nodup → (∀ a ∈ acc, a ∉ tv) →
      DClosedG g (acc ++ (visitF g f x tv).1) ∧
      (acc ++ (visitF g f x tv).1).Nodup ∧
      (∀ z, z ∈ (visitF g f x tv).2 ↔ z ∈ tv ∧ z ∉ (visitF g f x tv).1) ∧
      (∀ z ∈ keysOf g, z ∉ (visitF g f x tv).2 → z ∉ S →
        z ∈ acc ++ (visitF g f x tv).1)) :
    ∀ (ds : List α) (x : α) (tv acc S : List α),
      (∀ d ∈ ds, d ∈ revDeps g x) →
      tv.length ≤ f → tv.Nodup → x ∉ tv →
      (∀ s ∈ S, rk x < rk s) → (∀ s ∈ S, s ∉ tv) → (∀ s ∈ S, s ∉ acc) →
      x ∉ acc →
      (∀ z ∈ keysOf g, z ∉ tv → z ∉ S → z ≠ x → z ∈ acc) →
      DClosedG g acc → acc.Nodup → (∀ a ∈ acc, a ∉ tv) →
      DClosedG g (acc ++ (List.foldl (vstep g f) ([], tv) ds).1) ∧
      (acc ++ (List.foldl (vstep g f) ([], tv) ds).1).Nodup ∧
      (∀ z, z ∈ (List.foldl (vstep g f) ([], tv) ds).2 ↔
        z ∈ tv ∧ z ∉ (List.foldl (vstep g f) ([], tv) ds).1) ∧
      (∀ z ∈ keysOf g, z ∉ (List.foldl (vstep g f) ([], tv) ds).2 → z ∉ S → z ≠ x →
        z ∈ acc ++ (List.foldl (vstep g f) ([], tv) ds).1) ∧
      (∀ d ∈ ds, d ∉ (List.foldl (vstep g f) ([], tv) ds).2) := by
  intro ds
  induction ds with
  | nil =>
    intro x tv acc S _hds _hlen _hnd _hxtv _hSrk _hStv _hSacc _hxacc hdone hacC haccnd _hacctv
    simp only [List.foldl]
    refine ⟨?_, ?_, ?_, ?_, ?_⟩
    · rw [List.append_nil]; exact hacC
    · rw [List.append_nil]; exact haccnd
    · intro z
      exact ⟨fun hz => ⟨hz, List.not_mem_nil _⟩, fun hz => hz.1⟩
    · intro z hzk hznot hzS hzx
      rw [List.append_nil]
      exact hdone z hzk hznot hzS hzx
    · intro d hd
      exact absurd hd (List.not_mem_nil _)
  | cons d rest ihd =>
    intro x tv acc S hds hlen hnd hxtv hSrk hStv hSacc hxacc hdone hacC haccnd hacctv
    simp only [List.foldl]
    by_cases hd : d ∈ tv
    · have hdrev : d ∈ revDeps g x := hds d (List.mem_cons_self _ _)
      have hrkdx : rk d < rk x := rk_lt_of_mem_revDeps HR hdrev
      have htvne : tv ≠ [] := fun h => by
        subst h; exact absurd hd (List.not_mem_nil d)
      have h0 : 0 < tv.length := List.length_pos.2 htvne
      have herlen : (tv.erase d).length < f := by
        rw [List.length_erase_of_mem hd]; omega
      have hernd : (tv.erase d).Nodup := hnd.erase d
      have hder : d ∉ tv.erase d := fun hmem =>
        absurd ((hnd.mem_erase_iff).1 hmem).1 (by simp)
      have hV := hIH d (tv.erase d) acc (x :: S) herlen hernd hder
        (by
          intro s hs
          rcases List.mem_cons.1 hs with rfl | hs
          · exact hrkdx
          · exact lt_trans hrkdx (hSrk s hs))
        (by
          intro s hs
          rcases List.mem_cons.1 hs with rfl | hs
          · exact fun hmem => hxtv (List.erase_subset _ _ hmem)
          · exact fun hmem => hStv s hs (List.erase_subset _ _ hmem))
        (by
          intro s hs
          rcases List.mem_cons.1 hs with rfl | hs
          · exact hxacc
          · exact hSacc s hs)
        (fun hdacc => hacctv d hdacc hd)
        (by
          intro z hzk hzer hzxS hzd
          have hzx : z ≠ x := fun h => hzxS (h ▸ List.mem_cons_self _ _)
          have hzS : z ∉ S := fun h => hzxS (List.mem_cons_of_mem _ h)
          have hztv : z ∉ tv := fun hztv => hzer ((List.mem_erase_of_ne hzd).2 hztv)
          exact hdone z hzk hztv hzS hzx)
        hacC haccnd
        (fun a ha hmem => hacctv a ha (List.erase_subset _ _ hmem))
      obtain ⟨hVcl, hVnd, hViff, hVdone⟩ := hV
      have hqsub := (visitF_basic g f d (tv.erase d)).1
      have hqsrc := (visitF_basic g f d (tv.erase d)).2.1
      rw [show vstep g f ([], tv) d =
          ((visitF g f d (tv.erase d)).1, (visitF g f d (tv.erase d)).2) from
        by simp [vstep, hd]]
      rw [foldl_vstep_frame]
      have hR := ihd x ((visitF g f d (tv.erase d)).2)
        (acc ++ (visitF g f d (tv.erase d)).1) S
        (fun d2 hd2 => hds d2 (List.mem_cons_of_mem _ hd2))
        (by
          have := hqsub.length_le
          rw [List.length_erase_of_mem hd] at this
          omega)
        (hernd.sublist hqsub)
        (fun h => hxtv (List.erase_subset _ _ (hqsub.subset h)))
        hSrk
        (fun s hs h => hStv s hs (List.erase_subset _ _ (hqsub.subset h)))
        (by
          intro s hs hmem
          rcases List.mem_append.1 hmem with h | h
          · exact hSacc s hs h
          · rcases hqsrc s h with rfl | h2
            · exact hStv s hs hd
            · exact hStv s hs (List.erase_subset _ _ h2))
        (by
          intro hmem
          rcases List.mem_append.1 hmem with h | h
          · exact hxacc h
          · rcases hqsrc x h with rfl | h2
            · exact hxtv hd
            · exact hxtv (List.erase_subset _ _ h2))
        (by
          intro z hzk hz2 hzS hzx
          refine hVdone z hzk hz2 ?_
          intro h
          rcases List.mem_cons.1 h with rfl | h
          · exact hzx rfl
          · exact hzS h)
        hVcl hVnd
        (by
          intro a ha hmem
          have hm2 := (hViff a).1 hmem
          rcases List.mem_append.1 ha with ha2 | ha2
          · exact hacctv a ha2 (List.erase_subset _ _ hm2.1)
          · exact hm2.2 ha2)
      obtain ⟨hRcl, hRnd, hRiff, hRdone, hRds⟩ := hR
      refine ⟨?_, ?_, ?_, ?_, ?_⟩
      · rw [← List.append_assoc]
        exact hRcl
      · rw [← List.append_assoc]
        exact hRnd
      · intro z
        constructor
        · intro h
          obtain ⟨hq2, hr1⟩ := (hRiff z).1 h
          obtain ⟨her, hq1⟩ := (hViff z).1 hq2
          exact ⟨List.erase_subset _ _ her,
            fun hmem => (List.mem_append.1 hmem).elim hq1 hr1⟩
        · rintro ⟨hztv, hnotin⟩
          have hq1 : z ∉ (visitF g f d (tv.erase d)).1 :=
            fun h => hnotin (List.mem_append_left _ h)
          have hr1 : z ∉ (List.foldl (vstep g f) ([], (visitF g f d (tv.erase d)).2) rest).1 :=
            fun h => hnotin (List.mem_append_right _ h)
          have hzd : z ≠ d := fun h => hq1 (h ▸ visit_self_mem g f d _)
          exact (hRiff z).2 ⟨(hViff z).2 ⟨(List.mem_erase_of_ne hzd).2 hztv, hq1⟩, hr1⟩
      · intro z hzk hz2 hzS hzx
        rw [← List.append_assoc]
        exact hRdone z hzk hz2 hzS hzx
      · intro d2 hd2
        rcases List.mem_cons.1 hd2 with rfl | hd2
        · intro hbad
          exact hder ((hViff d2).1 ((hRiff d2).1 hbad).1).1
        · exact hRds d2 hd2
    · rw [show vstep g f ([], tv) d = ([], tv) from by simp [vstep, hd]]
      have hres := ihd x tv acc S (fun d2 hd2 => hds d2 (List.mem_cons_of_mem _ hd2))
        hlen hnd hxtv hSrk hStv hSacc hxacc hdone hacC haccnd hacctv
      refine ⟨hres.1, hres.2.1, hres.2.2.1, hres.2.2.2.1, ?_⟩
      intro d2 hd2
      rcases List.mem_cons.1 hd2 with rfl | hd2
      · intro hbad
        exact hd ((hres.2.2.1 d2).1 hbad).1
      · exact hres.2.2.2.2 d2 hd2

theorem visitF_spec (g : List (α × List α)) (rk : α → Nat) (HR : RankOk g rk) :
    ∀ (f : Nat) (x : α) (tv acc S : List α),
      tv.length < f → tv.Nodup → x ∉ tv →
      (∀ s ∈ S, rk x < rk s) → (∀ s ∈ S, s ∉ tv) → (∀ s ∈ S, s ∉ acc) →
      x ∉ acc →
      (∀ z ∈ keysOf g, z ∉ tv → z ∉ S → z ≠ x → z ∈ acc) →
      DClosedG g acc → acc.Nodup → (∀ a ∈ acc, a ∉ tv) →
      DClosedG g (acc ++ (visitF g f x tv).1) ∧
      (acc ++ (visitF g f x tv).1).Nodup ∧
      (∀ z, z ∈ (visitF g f x tv).2 ↔ z ∈ tv ∧ z ∉ (visitF g f x tv).1) ∧
      (∀ z ∈ keysOf g, z ∉ (visitF g f x tv).2 → z ∉ S →
        z ∈ acc ++ (visitF g f x tv).1) := by
  intro f
  induction f with
  | zero =>
    intro x tv acc S hlen
    exact absurd hlen (Nat.not_lt_zero _)
  | succ f ih =>
    intro x tv acc S hlen hnd hxtv hSrk hStv hSacc hxacc hdone hacC haccnd hacctv
    rw [visitF_succ]
    have hspec := visitF_spec_of g rk HR f ih (revDeps g x) x tv acc S
      (fun d hd2 => hd2) (by omega) hnd hxtv hSrk hStv hSacc hxacc hdone hacC
      haccnd hacctv
    obtain ⟨hFcl, hFnd, hFiff, hFdone, hFds⟩ := hspec
    have hxP1 : x ∉ (List.foldl (vstep g f) ([], tv) (revDeps g x)).1 :=
      fun h => hxtv ((foldl_vstep_basic g f (revDeps g x) tv).2.1 x h)
    refine ⟨?_, ?_, ?_, ?_⟩
    · rw [← List.append_assoc]
      refine DClosedG_append_singleton hFcl ?_
      intro d2 hd2
      have hd2k := mem_keys_of_mem_revDeps hd2
      have hrk := rk_lt_of_mem_revDeps HR hd2
      have hd2S : d2 ∉ S := fun h => lt_irrefl _ (lt_trans hrk (hSrk d2 h))
      have hd2x : d2 ≠ x := fun h => lt_irrefl _ (h ▸ hrk)
      exact hFdone d2 hd2k (hFds d2 hd2) hd2S hd2x
    · rw [← List.append_assoc]
      refine List.Nodup.append hFnd (List.nodup_singleton x) ?_
      intro a ha hax
      rw [List.mem_singleton] at hax
      subst hax
      rcases List.mem_append.1 ha with h | h
      · exact hxacc h
      · exact hxP1 h
    · intro z
      constructor
      · intro h
        obtain ⟨hztv, hzP1⟩ := (hFiff z).1 h
        refine ⟨hztv, fun hmem => ?_⟩
        rcases List.mem_append.1 hmem with h2 | h2
        · exact hzP1 h2
        · rw [List.mem_singleton] at h2
          subst h2
          exact hxtv hztv
      · rintro ⟨hztv, hnot⟩
        exact (hFiff z).2 ⟨hztv, fun h => hnot (List.mem_append_left _ h)⟩
    · intro z hzk hz2 hzS
      by_cases hzx : z = x
      · subst hzx
        exact List.mem_append_right _ (List.mem_append_right _ (List.mem_singleton.2 rfl))
      · have hz3 := hFdone z hzk hz2 hzS hzx
        rcases List.mem_append.1 hz3 with h | h
        · exact List.mem_append_left _ h
        · exact List.mem_append_right _ (List.mem_append_left _ h)

end Splode

namespace Splode

variable {α : Type} [DecidableEq α]

theorem walkF_spec (g : List (α × List α)) (rk : α → Nat) (HR : RankOk g rk) :
    ∀ (wf : Nat) (tv acc : List α),
      tv.length < wf →
      tv.length ≤ g.length →
      tv.Nodup →
      (∀ z ∈ keysOf g, z ∉ tv → z ∈ acc) →
      DClosedG g acc → acc.Nodup → (∀ a ∈ acc, a ∉ tv) →
      DClosedG g (acc ++ walkF g (g.length + 1) wf tv) ∧
      (∀ z ∈ keysOf g, z ∈ acc ++ walkF g (g.length + 1) wf tv) := by
  intro wf
  induction wf with
  | zero =>
    intro tv acc hlen
    exact absurd hlen (Nat.not_lt_zero _)
  | succ wf ih =>
    intro tv acc hlt hle hnd hdone hacC haccnd hacctv
    cases tv with
    | nil =>
      simp only [walkF, List.append_nil]
      exact ⟨hacC, fun z hz => hdone z hz (List.not_mem_nil _)⟩
    | cons x rest =>
      simp only [walkF]
      have hndrest : rest.Nodup := (List.nodup_cons.1 hnd).2
      have hxrest : x ∉ rest := (List.nodup_cons.1 hnd).1
      have hxacc : x ∉ acc := fun h => hacctv x h (List.mem_cons_self _ _)
      have hV := visitF_spec g rk HR (g.length + 1) x rest acc []
        (by simp only [List.length_cons] at hle; omega)
        hndrest hxrest
        (fun s hs => absurd hs (List.not_mem_nil _))
        (fun s hs => absurd hs (List.not_mem_nil _))
        (fun s hs => absurd hs (List.not_mem_nil _))
        hxacc
        (by
          intro z hzk hzr _ hzx
          refine hdone z hzk fun hmem => ?_
          rcases List.mem_cons.1 hmem with h | h
          · exact hzx h
          · exact hzr h)
        hacC haccnd
        (fun a ha hmem => hacctv a ha (List.mem_cons_of_mem _ hmem))
      obtain ⟨hVcl, hVnd, hViff, hVdone⟩ := hV
      have hsub := (visitF_basic g (g.length + 1) x rest).1
      have hW := ih ((visitF g (g.length + 1) x rest).2)
        (acc ++ (visitF g (g.length + 1) x rest).1)
        (by
          have h1 := hsub.length_le
          simp only [List.length_cons] at hlt
          omega)
        (by
          have h1 := hsub.length_le
          simp only [List.length_cons] at hle
          omega)
        (hndrest.sublist hsub)
        (fun z hzk hz2 => hVdone z hzk hz2 (List.not_mem_nil _))
        hVcl hVnd
        (by
          intro a ha hmem
          have h2 := (hViff a).1 hmem
          rcases List.mem_append.1 ha with h | h
          · exact hacctv a h (List.mem_cons_of_mem _ h2.1)
          · exact h2.2 h)
      obtain ⟨hWcl, hWall⟩ := hW
      constructor
      · rw [← List.append_assoc]
        exact hWcl
      · intro z hz
        have h3 := hWall z hz
        rw [← List.append_assoc]
        exact h3

/-! ### indexOf helpers -/

theorem indexOf_append_of_not_mem_left (a : α) :
    ∀ (l1 l2 : List α), a ∉ l1 →
      (l1 ++ l2).indexOf a = l1.length + l2.indexOf a := by
  intro l1
  induction l1 with
  | nil => intro l2 _; simp
  | cons x xs ih =>
    intro l2 h
    have hax : x ≠ a := fun hh => h (hh ▸ List.mem_cons_self _ _)
    simp only [List.cons_append]
    rw [List.indexOf_cons_ne _ hax, ih l2 fun hh => h (List.mem_cons_of_mem _ hh)]
    simp only [List.length_cons]
    omega

theorem indexOf_append_le (a : α) :
    ∀ (l1 l2 : List α), (l1 ++ l2).indexOf a ≤ l1.length + l2.indexOf a := by
  intro l1
  induction l1 with
  | nil => intro l2; simp
  | cons x xs ih =>
    intro l2
    by_cases hax : x = a
    · subst hax
      simp only [List.cons_append]
      rw [List.indexOf_cons_self]
      omega
    · simp only [List.cons_append]
      rw [List.indexOf_cons_ne _ hax]
      have h2 := ih l2
      simp only [List.length_cons]
      omega

theorem indexOf_lt_of_mem_take (a : α) :
    ∀ (l : List α) (i : Nat), a ∈ l.take i → l.indexOf a < i := by
  intro l
  induction l with
  | nil => intro i h; simp at h
  | cons x xs ih =>
    intro i h
    cases i with
    | zero => simp at h
    | succ i =>
      rw [List.take_succ_cons] at h
      rcases List.mem_cons.1 h with rfl | h
      · rw [List.indexOf_cons_self]; omega
      · by_cases hax : x = a
        · subst hax; rw [List.indexOf_cons_self]; omega
        · rw [List.indexOf_cons_ne _ hax]
          have h2 := ih i h
          omega

theorem keys_nodup_val_eq {g : List (α × List α)} (hkeys : (keysOf g).Nodup) :
    ∀ {x : α} {v1 v2 : List α}, (x, v1) ∈ g → (x, v2) ∈ g → v1 = v2 := by
  induction g with
  | nil => intro x v1 v2 h1; exact absurd h1 (List.not_mem_nil _)
  | cons p rest ih =>
    intro x v1 v2 h1 h2
    have hk := hkeys
    rw [show keysOf (p :: rest) = p.1 :: keysOf rest from rfl, List.nodup_cons] at hk
    obtain ⟨hp1, hrest⟩ := hk
    rcases List.mem_cons.1 h1 with h1 | h1 <;> rcases List.mem_cons.1 h2 with h2 | h2
    · exact congrArg Prod.snd (h1.trans h2.symm)
    · exfalso
      apply hp1
      have hfst : p.1 = x := by rw [← h1]
      rw [hfst]
      exact List.mem_map_of_mem _ h2
    · exfalso
      apply hp1
      have hfst : p.1 = x := by rw [← h2]
      rw [hfst]
      exact List.mem_map_of_mem _ h1
    · exact ih hrest h1 h2

/-- C1 (amended): for every finite acyclic reference graph, for every edge
"A is used by B", *provided B is not pre-yielded* (B's entry has a nonempty
user set or its keep-even-if-unused flag is unset), the first occurrence of
`A` in `bottom_up`'s output is strictly before the first occurrence of `B`;
the pre-yield of unused fake-user datablocks is the only violation of the
claimed ordering. -/
theorem C1_bottom_up_order_amended (g : List (α × List α)) (fu : α → Bool)
    (rk : α → Nat) (HR : RankOk g rk)
    (hkeys : (keysOf g).Nodup)
    (A B : α) (us usB : List α)
    (hA : (A, us) ∈ g) (hB : B ∈ us)
    (hBg : (B, usB) ∈ g) (hBpre : ¬(usB = [] ∧ fu B = true)) :
    (bottom_up g fu).indexOf A < (bottom_up g fu).indexOf B := by
  have hrw := walkF_spec g rk HR (g.length + 1) (keysOf g) []
    (by simp [keysOf]) (by simp [keysOf]) hkeys
    (fun z hz hznot => absurd hz hznot)
    (DClosedG_nil g) List.nodup_nil
    (fun a ha => absurd ha (List.not_mem_nil _))
  rw [List.nil_append] at hrw
  obtain ⟨hcl, hall⟩ := hrw
  have hBkeys : B ∈ keysOf g := List.mem_map_of_mem _ hBg
  have hBwalk : B ∈ walkF g (g.length + 1) (g.length + 1) (keysOf g) := hall B hBkeys
  have hAdep : A ∈ revDeps g B := mem_revDeps_of_edge hA hB
  have hiB : (walkF g (g.length + 1) (g.length + 1) (keysOf g)).indexOf B <
      (walkF g (g.length + 1) (g.length + 1) (keysOf g)).length :=
    List.indexOf_lt_length.2 hBwalk
  have hgetB : (walkF g (g.length + 1) (g.length + 1) (keysOf g)).get
      ⟨(walkF g (g.length + 1) (g.length + 1) (keysOf g)).indexOf B, hiB⟩ = B :=
    List.indexOf_get hiB
  have htake := hcl ((walkF g (g.length + 1) (g.length + 1) (keysOf g)).indexOf B)
    hiB A (by rw [hgetB]; exact hAdep)
  have hAB : (walkF g (g.length + 1) (g.length + 1) (keysOf g)).indexOf A <
      (walkF g (g.length + 1) (g.length + 1) (keysOf g)).indexOf B :=
    indexOf_lt_of_mem_take A _ _ htake
  have hBpre2 : B ∉ preYield g fu := by
    intro hmem
    unfold preYield at hmem
    rw [List.mem_map] at hmem
    obtain ⟨p, hp, hpB⟩ := hmem
    rw [List.mem_filter] at hp
    obtain ⟨hpg, hcond⟩ := hp
    have hpmem : (B, p.2) ∈ g := by
      have hpe : p = (B, p.2) := by
        obtain ⟨a, b⟩ := p
        simp only at hpB
        rw [show a = B from hpB]
      rw [← hpe]
      exact hpg
    have hval : p.2 = usB := keys_nodup_val_eq hkeys hpmem hBg
    rw [Bool.and_eq_true] at hcond
    refine hBpre ⟨?_, ?_⟩
    · rw [← hval]
      exact List.isEmpty_iff.1 hcond.1
    · exact hpB ▸ hcond.2
  have hfull : bottom_up g fu =
      preYield g fu ++ walkF g (g.length + 1) (g.length + 1) (keysOf g) := rfl
  rw [hfull, indexOf_append_of_not_mem_left B _ _ hBpre2]
  have h1 := indexOf_append_le A (preYield g fu)
    (walkF g (g.length + 1) (g.length + 1) (keysOf g))
  omega

/-- C1 (witness): on the acyclic graph `{A: {B}, B: set()}` (`A = 1, B = 2`)
with no fake users, `B` is not pre-yielded and the walk yields `A` before
`B`. -/
theorem C1_bottom_up_order_amended_witness :
    RankOk [(1, [2]), (2, ([] : List Nat))] (fun n => n) ∧
    (keysOf [(1, [2]), (2, ([] : List Nat))]).Nodup ∧
    (1, [2]) ∈ [(1, [2]), (2, ([] : List Nat))] ∧
    2 ∈ [2] ∧
    (2, ([] : List Nat)) ∈ [(1, [2]), (2, ([] : List Nat))] ∧
    ¬(([] : List Nat) = [] ∧ (fun (_ : Nat) => false) 2 = true) ∧
    (bottom_up [(1, [2]), (2, ([] : List Nat))] (fun _ => false)).indexOf 1 <
      (bottom_up [(1, [2]), (2, ([] : List Nat))] (fun _ => false)).indexOf 2 :=
  ⟨by intro p hp u hu; fin_cases hp <;> simp_all,
    by decide, by decide, by decide, by decide, by decide,
    C1_bottom_up_order_amended _ _ (fun n => n)
      (by intro p hp u hu; fin_cases hp <;> simp_all)
      (by decide) 1 2 [2] [] (by decide) (by decide) (by decide) (by decide)⟩

end Splode
